import Mathlib

/-!
Verification development for the claude-local-proxy repository.

This file gives a shallow embedding of the parts of the repository that the
verified properties are about:

* `src/src/queue.js` — the bounded admission `Queue` (constructor, `enqueue`,
  `_pump`, settlement of a running job), embedded as an explicit state machine
  `QueueState` with a small-step trace semantics `runTrace`.
* `src/proxy.mjs` — `pickModel`, `anthropicToOpenAI`, `openAISSEToJSON`,
  `callOllamaJSON` / the non-streaming `/v1/messages` branch,
  `streamOllamaToAnthropic` / the streaming branch with its error handler,
  and the `rateLimit` gate.

JavaScript asynchrony is modelled by explicit state passing: every mutation of
the queue happens between suspension points on the single cooperative thread,
so a trace of `enqueue` / settlement events with the pump run at the points the
source runs it is a faithful account of the reachable states.
-/

namespace LocalProxy

/-! ## Queue (src/src/queue.js)

State of one `Queue` instance.  The JS object keeps `limit`, `inflight`, the
pending array `q` and `options.maxQueueLength`; the remaining fields are ghost
logs used to state properties: `running` records which started jobs have not
yet settled (the JS code only keeps the counter `inflight`), `started` records
job ids in the order `_pump` invoked them, `settledLog` records the outcomes
delivered to each job's caller (`.then(job.resolve, job.reject)`), `arrived`
records accepted jobs in arrival order, and `nextId` numbers the jobs. -/

/-- Settlement outcome of a job's function: fulfilled with a value or rejected
with an error (payloads abstracted as `Nat` codes). -/
inductive Outcome where
  | ok (v : Nat)
  | err (e : Nat)
deriving DecidableEq, Repr

/-- The `options` bag of the `Queue` constructor; `none` models `Infinity`. -/
structure QueueOptions where
  maxQueueLength : Option Nat
deriving DecidableEq, Repr

/-- State of a `Queue` instance plus ghost logs (see section header). -/
structure QueueState where
  limit : Nat
  opts : QueueOptions
  inflight : Nat
  q : List Nat
  running : List Nat
  started : List Nat
  settledLog : List (Nat × Outcome)
  arrived : List Nat
  nextId : Nat
deriving DecidableEq, Repr

/-- The `Queue` constructor: `this.limit = Math.max(1, Number(limit) || 1)`
(so a limit of `0` is coerced to `1`).  The options object is
`{ maxQueueLength: options.maxQueueLength || Infinity, ...options }`: the
spread comes after the default, so a configured `maxQueueLength` is stored
verbatim — including `0`, under which every enqueue is rejected as
queue-full — while an absent one (`none`) means `Infinity`. -/
def mkQueue (limit : Nat) (maxQueueLength : Option Nat) : QueueState where
  limit := max 1 limit
  opts := { maxQueueLength := maxQueueLength }
  inflight := 0
  q := []
  running := []
  started := []
  settledLog := []
  arrived := []
  nextId := 0

/-- `Queue._pump()`: return if `inflight >= limit`; `shift()` the pending
head, return if there is none; otherwise increment `inflight` and invoke the
job's function (recorded in `running` and in the `started` log).  The source
starts at most one job per invocation. -/
def pump (s : QueueState) : QueueState :=
  if s.limit ≤ s.inflight then s
  else
    match s.q with
    | [] => s
    | j :: rest =>
      { s with inflight := s.inflight + 1
               q := rest
               running := s.running ++ [j]
               started := s.started ++ [j] }

/-- The argument passed to `enqueue`: a job function, or any non-function
value (which the source rejects with a `TypeError` before touching state). -/
inductive EnqueueArg where
  | jobFn
  | nonFunction
deriving DecidableEq, Repr

/-- Result communicated to the caller of `enqueue`. -/
inductive EnqueueResult where
  | accepted (id : Nat)
  | typeError
  | queueFull
deriving DecidableEq, Repr

/-- `Queue.enqueue(fn)`: `typeof fn !== 'function'` throws a `TypeError`;
`this.q.length >= this.options.maxQueueLength` returns a rejected promise
(`Queue is full`); otherwise the job is pushed and `_pump()` runs. -/
def enqueue (s : QueueState) (a : EnqueueArg) : EnqueueResult × QueueState :=
  match a with
  | .nonFunction => (.typeError, s)
  | .jobFn =>
    let full := match s.opts.maxQueueLength with
      | some m => decide (m ≤ s.q.length)
      | none => false
    if full then (.queueFull, s)
    else
      let j := s.nextId
      (.accepted j,
        pump { s with q := s.q ++ [j]
                      arrived := s.arrived ++ [j]
                      nextId := j + 1 })

/-- Settlement of a running job's function with outcome `o`: the source chain
`.then(job.resolve, job.reject).finally(() => { this.inflight--; this._pump(); })`
delivers the job's own outcome to its caller, then unconditionally decrements
`inflight` and pumps again.  Settlement of a job that is not running is a
no-op (it cannot occur). -/
def settle (s : QueueState) (j : Nat) (o : Outcome) : QueueState :=
  if j ∈ s.running then
    pump { s with running := s.running.erase j
                  inflight := s.inflight - 1
                  settledLog := s.settledLog ++ [(j, o)] }
  else s

/-- One externally visible queue event: an `enqueue` call, or the settlement
of a running job's function. -/
inductive QEvent where
  | enq (a : EnqueueArg)
  | settleEv (j : Nat) (o : Outcome)
deriving DecidableEq, Repr

/-- Apply one event to the queue state. -/
def qstep (s : QueueState) (e : QEvent) : QueueState :=
  match e with
  | .enq a => (enqueue s a).2
  | .settleEv j o => settle s j o

/-- Run a trace of events from a state. -/
def runTrace (s : QueueState) (t : List QEvent) : QueueState :=
  t.foldl qstep s

/-- Invariant of reachable queue states: the limit is positive (constructor
coercion), at most `limit` jobs run, the queue is drained whenever capacity is
free (saturation), `inflight` counts the running jobs, accepted arrivals are
exactly the started jobs followed by the pending ones (FIFO), and all live job
ids are below `nextId` (freshness). -/
def QInv (s : QueueState) : Prop :=
  1 ≤ s.limit ∧
  s.inflight ≤ s.limit ∧
  (s.inflight = s.limit ∨ s.q = []) ∧
  s.inflight = s.running.length ∧
  s.arrived = s.started ++ s.q ∧
  (∀ k ∈ s.q, k < s.nextId) ∧
  (∀ k ∈ s.running, k < s.nextId)

instance (s : QueueState) : Decidable (QInv s) := by
  unfold QInv
  infer_instance

/-! ## Model selection (src/proxy.mjs, `pickModel`) -/

/-- Case-insensitive lowering of a character list; the JS `i` regex flag only
affects ASCII letters for the keywords involved here. -/
def lowerChars (l : List Char) : List Char :=
  l.map Char.toLower

/-- Boolean list-prefix test. -/
def isPrefixList : List Char → List Char → Bool
  | [], _ => true
  | _ :: _, [] => false
  | a :: as, b :: bs => a == b && isPrefixList as bs

/-- Boolean list-substring test (`p` occurs contiguously in the argument). -/
def isInfixList (p : List Char) : List Char → Bool
  | [] => isPrefixList p []
  | c :: rest => isPrefixList p (c :: rest) || isInfixList p rest

/-- Keywords of `CODE_PATTERN = /(代码|code|class|import|docker|sql|bash|python|java|js|ts|bug|报错|编译|运行)/i`. -/
def CODE_KEYWORDS : List String :=
  ["代码", "code", "class", "import", "docker", "sql", "bash",
   "python", "java", "js", "ts", "bug", "报错", "编译", "运行"]

/-- Keywords of `REASONING_PATTERN = /(证明|推导|为什么|一步一步|严谨|推理)/i`. -/
def REASONING_KEYWORDS : List String :=
  ["证明", "推导", "为什么", "一步一步", "严谨", "推理"]

/-- `pattern.test(text)` for an alternation of literal keywords with the `i`
flag: some keyword is a case-insensitive substring of the text. -/
def testPattern (kws : List String) (text : String) : Bool :=
  kws.any fun k => isInfixList (lowerChars k.toList) (lowerChars text.toList)

/-- `pickModel(text)` from src/proxy.mjs: code keywords choose the coder
model, then reasoning keywords choose the reasoning model, then texts shorter
than 160 choose the small model, else the default model. -/
def pickModel (text : String) : String :=
  let isShortText := text.length < 160
  let hasCode := testPattern CODE_KEYWORDS text
  let isReasoning := testPattern REASONING_KEYWORDS text
  if hasCode then "deepseek-coder:6.7b"
  else if isReasoning then "qwen2.5:7b"
  else if isShortText then "qwen3:0.6b"
  else "llama3.2:latest"

/-! ## Request translation (src/proxy.mjs, `anthropicToOpenAI`) -/

/-- A typed content part (`x.type`, `x.text`); `text` is `none` when the JS
object lacks the field. -/
structure ContentPart where
  type : String
  text : Option String
deriving DecidableEq, Repr

/-- The `system` field of an inbound body: absent, a string, or an array of
typed parts. -/
inductive SystemField where
  | absent
  | str (s : String)
  | parts (ps : List ContentPart)
deriving DecidableEq, Repr

/-- The `content` of one conversation message: a string, an array of typed
parts, or any other JS value (for which the source leaves `text = ""`). -/
inductive MsgContent where
  | str (s : String)
  | parts (ps : List ContentPart)
  | other
deriving DecidableEq, Repr

/-- One inbound conversation message. -/
structure AnthMessage where
  role : String
  content : MsgContent
deriving DecidableEq, Repr

/-- The inbound body fields that `anthropicToOpenAI` reads. -/
structure AnthBody where
  system : SystemField
  messages : List AnthMessage
deriving DecidableEq, Repr

/-- One outbound OpenAI-shape message (`role`, flattened string `content`). -/
structure ChatMessage where
  role : String
  content : String
deriving DecidableEq, Repr

/-- `anth.system.map(x => x.text || "").flatten("\n")`: every part contributes
its text (empty when missing), joined by newlines. -/
def systemText (ps : List ContentPart) : String :=
  String.intercalate "\n" (ps.map fun p => p.text.getD "")

/-- `m.content.filter(x => x.type === "text").map(x => x.text).flatten("\n")`:
only text-typed parts contribute (a missing `text` renders as `""` under
`Array.prototype.flatten`), joined by newlines. -/
def flattenParts (ps : List ContentPart) : String :=
  String.intercalate "\n" ((ps.filter fun p => p.type == "text").map fun p => p.text.getD "")

/-- Flattening of one message's content: arrays flatten via `flattenParts`,
strings pass through, anything else leaves the initial `""`. -/
def flattenContent : MsgContent → String
  | .str s => s
  | .parts ps => flattenParts ps
  | .other => ""

/-- `anthropicToOpenAI(anth)` from src/proxy.mjs.  Note `if (anth.system)`
is a truthiness test: an empty-string `system` is skipped, while any array
(even `[]`) passes. -/
def anthropicToOpenAI (anth : AnthBody) : List ChatMessage :=
  let sys : List ChatMessage :=
    match anth.system with
    | .absent => []
    | .str s => if s == "" then [] else [⟨"system", s⟩]
    | .parts ps => [⟨"system", systemText ps⟩]
  sys ++ anth.messages.map fun m => ⟨m.role, flattenContent m.content⟩

/-! ## Backend SSE decoding (src/proxy.mjs, `openAISSEToJSON`)

The generator keeps a string buffer, appends each chunk decoded as UTF-8,
repeatedly cuts the buffer at the first `"\n\n"`, looks for the first line of
the cut part starting with `data:`, trims the payload after the colon, skips
empty payloads, stops the whole stream at `[DONE]`, parses the payload as
JSON, and silently skips payloads that do not parse.  `JSON.parse` is
abstracted as a parameter `parse : List Char → Option (List Char)` (the
decoder never inspects the parsed value, so any partial parsing function
yields the same control flow as the real one). -/

/-- Split a character buffer at the first occurrence of `"\n\n"`
(`buf.indexOf("\n\n")`; `buf.slice(0, idx)` and `buf.slice(idx + 2)`). -/
def splitOnceNN : List Char → Option (List Char × List Char)
  | [] => none
  | [_] => none
  | c1 :: c2 :: rest =>
    if c1 = '\n' ∧ c2 = '\n' then some ([], rest)
    else
      match splitOnceNN (c2 :: rest) with
      | none => none
      | some (p, r) => some (c1 :: p, r)

/-- Split a character list into the segments delimited by characters
satisfying `sep` (like `String.prototype.split` on a one-character
separator). -/
def splitOnPred (sep : Char → Bool) : List Char → List (List Char)
  | [] => [[]]
  | c :: rest =>
    if sep c then [] :: splitOnPred sep rest
    else
      match splitOnPred sep rest with
      | [] => [[c]]
      | l :: ls => (c :: l) :: ls

/-- The whitespace set of `String.prototype.trim` restricted to its ASCII
members (the payloads at issue never carry the exotic Unicode spaces the JS
definition additionally strips). -/
def isJsWhitespace (c : Char) : Bool :=
  c = ' ' || c = '\t' || c = '\n' || c = '\r' || c = '\x0b' || c = '\x0c'

/-- `String.prototype.trim` on a character list. -/
def trimChars (l : List Char) : List Char :=
  ((l.dropWhile isJsWhitespace).reverse.dropWhile isJsWhitespace).reverse

/-- What one blank-line-terminated part contributes to the decoded stream. -/
inductive FrameAction where
  | skip
  | done
  | emit (j : List Char)
deriving DecidableEq, Repr

/-- Processing of one part: find the first line starting with `data:`, take
the payload after the 5-character marker, trim it; empty payload → skip,
`[DONE]` → end of stream, otherwise parse (unparseable → skip). -/
def frameAction (parse : List Char → Option (List Char)) (part : List Char) : FrameAction :=
  match (splitOnPred (· = '\n') part).find? (fun l => isPrefixList "data:".toList l) with
  | none => .skip
  | some line =>
    let payload := trimChars (line.drop 5)
    if payload = [] then .skip
    else if payload = "[DONE]".toList then .done
    else
      match parse payload with
      | none => .skip
      | some j => .emit j

/-- Fuel-indexed cutting loop: each iteration strictly shortens the buffer
(`splitOnceNN_length`), so fuel of at least the buffer length computes the
full loop. -/
def drainAux (parse : List Char → Option (List Char)) :
    Nat → List Char → Option (List Char) × List (List Char)
  | 0, buf => (some buf, [])
  | fuel + 1, buf =>
    match splitOnceNN buf with
    | none => (some buf, [])
    | some (part, rest) =>
      match frameAction parse part with
      | .done => (none, [])
      | .skip => drainAux parse fuel rest
      | .emit j =>
        let (st, es) := drainAux parse fuel rest
        (st, j :: es)

/-- Cut all complete parts out of a buffer: the `while` loop of
`openAISSEToJSON`.  Returns the surviving buffer (`none` after `[DONE]`,
which returns from the generator and abandons the rest) and the emitted
events. -/
def drain (parse : List Char → Option (List Char)) (buf : List Char) :
    Option (List Char) × List (List Char) :=
  drainAux parse buf.length buf

/-- Feed one transport chunk (already decoded to characters) to the decoder:
`buf += chunk` then the cutting loop.  After `[DONE]` the generator has
returned, so further chunks produce nothing. -/
def feedChunk (parse : List Char → Option (List Char)) (st : Option (List Char))
    (chunk : List Char) : Option (List Char) × List (List Char) :=
  match st with
  | none => (none, [])
  | some buf => drain parse (buf ++ chunk)

/-- Feed a list of chunks in order, concatenating the emitted events. -/
def feedAll (parse : List Char → Option (List Char)) (st : Option (List Char)) :
    List (List Char) → Option (List Char) × List (List Char)
  | [] => (st, [])
  | c :: cs =>
    let (st1, es1) := feedChunk parse st c
    let (st2, es2) := feedAll parse st1 cs
    (st2, es1 ++ es2)

/-- The decoded event sequence a consumer of `openAISSEToJSON` observes for a
given chunking of the transport. -/
def decodeSSE (parse : List Char → Option (List Char)) (chunks : List (List Char)) :
    List (List Char) :=
  (feedAll parse (some []) chunks).2

/-! ## Byte-level transport (`chunk.toString("utf8")`)

The generator decodes **each transport chunk separately**:
`buf += chunk.toString("utf8")`.  `Buffer.prototype.toString` implements the
WHATWG UTF-8 decode algorithm with replacement: an incomplete or invalid
sequence becomes U+FFFD per maximal subpart, so a multi-byte character split
across two chunks decodes to replacement characters.  The decoder below is
modelled from that algorithm (it is runtime behaviour, not repository code). -/

/-- Consume up to `needed` continuation bytes; the first one is checked
against the boundary pair `(lo, hi)` prescribed for the lead byte, later ones
against `0x80..0xBF`.  On failure the offending byte is left in the stream to
be reprocessed as a fresh lead; at end of input the truncated sequence yields
a single failure. -/
def utf8Cont : Nat → Nat → Nat → Nat → List Nat → Option (Nat × List Nat) ⊕ List Nat
  | 0, acc, _, _, bs => .inl (some (acc, bs))
  | _ + 1, _, _, _, [] => .inl none
  | k + 1, acc, lo, hi, b :: bs =>
    if lo ≤ b ∧ b ≤ hi then utf8Cont k (acc * 64 + (b - 0x80)) 0x80 0xBF bs
    else .inr (b :: bs)

/-- The replacement character U+FFFD. -/
def replChar : Char := Char.ofNat 0xFFFD

/-- WHATWG UTF-8 decode with replacement, fuel-indexed: each step consumes at
least one byte (`utf8Cont` only ever shortens the stream), so any fuel of at
least the byte count computes the full decode. -/
def utf8DecodeAux : Nat → List Nat → List Char
  | 0, _ => []
  | _ + 1, [] => []
  | fuel + 1, b :: bs =>
    if b < 0x80 then Char.ofNat b :: utf8DecodeAux fuel bs
    else if b < 0xC2 then replChar :: utf8DecodeAux fuel bs
    else if 0xF5 ≤ b then replChar :: utf8DecodeAux fuel bs
    else
      let spec : Nat × Nat × Nat × Nat :=
        if b ≤ 0xDF then (1, b - 0xC0, 0x80, 0xBF)
        else if b ≤ 0xEF then
          (2, b - 0xE0, if b = 0xE0 then 0xA0 else 0x80, if b = 0xED then 0x9F else 0xBF)
        else (3, b - 0xF0, if b = 0xF0 then 0x90 else 0x80, if b = 0xF4 then 0x8F else 0xBF)
      match utf8Cont spec.1 spec.2.1 spec.2.2.1 spec.2.2.2 bs with
      | .inl (some (cp, rest)) => Char.ofNat cp :: utf8DecodeAux fuel rest
      | .inl none => [replChar]
      | .inr rest => replChar :: utf8DecodeAux fuel rest

/-- WHATWG UTF-8 decode with replacement on a byte list (one byte per `Nat`),
as performed by `Buffer.prototype.toString("utf8")` on a whole chunk. -/
def utf8Decode (bs : List Nat) : List Char :=
  utf8DecodeAux bs.length bs

/-- The event stream observed when the byte chunks of the transport are each
decoded with `chunk.toString("utf8")` before entering the SSE buffer, exactly
as `openAISSEToJSON` does. -/
def decodeSSEBytes (parse : List Char → Option (List Char)) (chunks : List (List Nat)) :
    List (List Char) :=
  decodeSSE parse (chunks.map utf8Decode)

/-! ## Error shaping (src/proxy.mjs, `callOllamaJSON` and the catch branch) -/

/-- A thrown JS `Error`: its `name` and `message`. -/
structure JsError where
  name : String
  message : String
deriving DecidableEq, Repr

/-- The `error` object optionally found in an Ollama error body. -/
structure OllamaErrorInfo where
  message : Option String
deriving DecidableEq, Repr

/-- `choices[i].message` of a chat completion. -/
structure OllamaMessage where
  content : Option String
deriving DecidableEq, Repr

/-- One `choices[i]` entry. -/
structure OllamaChoice where
  message : Option OllamaMessage
deriving DecidableEq, Repr

/-- A (loosely shaped) backend JSON body: every field genuinely optional, as
the source's `?.` chains assume. -/
structure OllamaData where
  choices : Option (List OllamaChoice)
  error : Option OllamaErrorInfo
deriving DecidableEq, Repr

/-- Outcome of the `fetch` in `callOllamaJSON`: a 2xx response with its parsed
body, a non-2xx response with parsed body and raw text, or an abort fired by
the timeout. -/
inductive FetchOutcome where
  | success (data : OllamaData)
  | httpError (status : Nat) (data : OllamaData) (txt : String)
  | abort
deriving DecidableEq, Repr

/-- Error message built for a non-2xx backend response:
`ollama_http_<status>` plus `: <data.error.message>` if that is truthy, else
`: <txt>` if the body text is truthy. -/
def ollamaHttpErrorMessage (status : Nat) (data : OllamaData) (txt : String) : String :=
  let base := "ollama_http_" ++ toString status
  match data.error.bind (·.message) with
  | some m =>
    if m == "" then (if txt == "" then base else base ++ ": " ++ txt)
    else base ++ ": " ++ m
  | none => if txt == "" then base else base ++ ": " ++ txt

/-- `callOllamaJSON` as a function of the fetch outcome: successful bodies are
returned, non-2xx responses throw the message above, aborts surface as the
`AbortError` the aborted fetch rejects with. -/
def callOllamaJSON (o : FetchOutcome) : Except JsError OllamaData :=
  match o with
  | .success d => .ok d
  | .httpError st d txt => .error ⟨"Error", ollamaHttpErrorMessage st d txt⟩
  | .abort => .error ⟨"AbortError", "The operation was aborted."⟩

/-- Test for `"model"` occurring and `"not found"` occurring at or after it
within one character list (both case-insensitive). -/
def hasModelThenNotFound : List Char → Bool
  | [] => false
  | c :: rest =>
    (isPrefixList "model".toList (c :: rest) &&
      isInfixList "not found".toList ((c :: rest).drop 5)) ||
    hasModelThenNotFound rest

/-- `/model.*not found/i.test(msg)`: since `.` does not match line
terminators, the match must sit inside one newline-free segment. -/
def reModelNotFound (msg : String) : Bool :=
  (splitOnPred (fun c => c = '\n' || c = '\r') (lowerChars msg.toList)).any
    hasModelThenNotFound

/-- Drop a literal from the front of a character list, or fail. -/
def dropLit (pat l : List Char) : Option (List Char) :=
  if isPrefixList pat l then some (l.drop pat.length) else none

/-- The anchored pattern `ollama_(stream_)?http_` followed by one or more
digits, `:`, then any whitespace; returns the characters after the match. -/
def reOllamaHttpHead (l : List Char) : Option (List Char) :=
  (dropLit "ollama_".toList l).bind fun l1 =>
    let l2 := match dropLit "stream_".toList l1 with
      | some x => x
      | none => l1
    (dropLit "http_".toList l2).bind fun l3 =>
      let ds := l3.takeWhile Char.isDigit
      if ds = [] then none
      else
        match l3.drop ds.length with
        | ':' :: rest => some (rest.dropWhile isJsWhitespace)
        | _ => none

/-- `msg.replace(/^ollama_(stream_)?http_\d+:\s*/, "")`. -/
def stripOllamaHead (msg : String) : String :=
  match reOllamaHttpHead msg.toList with
  | some rest => String.mk rest
  | none => msg

/-- The long bilingual hint returned when the backend reports a missing
model. -/
def modelNotFoundHint : String :=
  "本地模型调用失败：模型未找到。\n\n请先使用以下命令拉取所需模型：\nollama pull qwen3:0.6b\nollama pull qwen2.5-coder\nollama pull deepseek-r1:7b\nollama pull qwen3:8b\n\n或者检查模型名称是否正确，然后再重试。"

/-- The catch branch of `POST /v1/messages`: classify the thrown error into a
human-readable description. -/
def friendlyMsg (timeoutMs : Nat) (e : JsError) : String :=
  if reModelNotFound e.message then modelNotFoundHint
  else if e.name == "AbortError" then
    "本地模型推理超时（>" ++ toString (timeoutMs / 1000) ++ "s）。建议换小模型/缩短上下文/提高超时时间。"
  else
    let errorMessage :=
      if "ollama_http_".isPrefixOf e.message || "ollama_stream_http_".isPrefixOf e.message
      then stripOllamaHead e.message
      else e.message
    "本地模型调用失败：" ++ errorMessage

/-! ## Non-streaming response (src/proxy.mjs, `POST /v1/messages`) -/

/-- One `content` entry of the Anthropic response envelope. -/
structure ContentBlock where
  type : String
  text : String
deriving DecidableEq, Repr

/-- The Anthropic response envelope written by both the success and the error
branch. -/
structure AnthEnvelope where
  id : String
  type : String
  role : String
  model : String
  content : List ContentBlock
  stop_reason : String
deriving DecidableEq, Repr

/-- `anth.model || "sonnet-4.5"` (JS truthiness: an empty string also falls
back to the default). -/
def modelOrDefault : Option String → String
  | some s => if s == "" then "sonnet-4.5" else s
  | none => "sonnet-4.5"

/-- `data?.choices?.[0]?.message?.content ?? ""`. -/
def extractText (d : OllamaData) : String :=
  ((((d.choices.getD []).head?).bind (·.message)).bind (·.content)).getD ""

/-- The non-streaming branch of `POST /v1/messages` after the queue slot is
held: HTTP status code and response envelope for each backend outcome. -/
def handleNonStream (timeoutMs : Nat) (anthModel : Option String) (o : FetchOutcome) :
    Nat × AnthEnvelope :=
  match callOllamaJSON o with
  | .ok data =>
    (200, { id := "msg-local", type := "message", role := "assistant"
            model := modelOrDefault anthModel
            content := [⟨"text", extractText data⟩]
            stop_reason := "end_turn" })
  | .error e =>
    (502, { id := "msg-local", type := "message", role := "assistant"
            model := modelOrDefault anthModel
            content := [⟨"text", friendlyMsg timeoutMs e⟩]
            stop_reason := "end_turn" })

/-! ## Streaming response (src/proxy.mjs, `streamOllamaToAnthropic` and the
stream branch of the catch handler)

The caller's connection is modelled as `SSEConn`: Node flushes the response
headers on the first `res.write`, and `res.setHeader` afterwards raises
`ERR_HTTP_HEADERS_SENT` (runtime behaviour, not repository code), which the
source does not catch. -/

/-- Anthropic-protocol SSE events written by the proxy. -/
inductive AnthSSE where
  | messageStart (id : String) (model : String)
  | contentBlockStart
  | contentBlockDelta (text : String)
  | contentBlockStop
  | messageStop
deriving DecidableEq, Repr

/-- The caller's response connection. -/
structure SSEConn where
  headersSent : Bool
  events : List AnthSSE
  ended : Bool
deriving DecidableEq, Repr

/-- `sseSend(res, obj)`: a `res.write`, which flushes headers. -/
def sseSend (r : SSEConn) (e : AnthSSE) : SSEConn :=
  { r with headersSent := true, events := r.events ++ [e] }

/-- `setSSE(res)`: three `res.setHeader` calls; `none` models the
`ERR_HTTP_HEADERS_SENT` throw when headers are already out. -/
def setSSE (r : SSEConn) : Option SSEConn :=
  if r.headersSent then none else some r

/-- One decoded backend frame as the loop reads it:
`evt?.choices?.[0]?.delta?.content` and `evt?.choices?.[0]?.finish_reason`. -/
structure OpenAIFrame where
  deltaContent : Option String
  finishReason : Option String
deriving DecidableEq, Repr

/-- JS truthiness of an optional string. -/
def truthyStr : Option String → Bool
  | some s => s ≠ ""
  | none => false

/-- Behaviour of the backend call for one streaming request: rejection before
any event could be written (network failure, non-2xx response — which the
source turns into a throw — or a timeout before headers), or a 2xx stream
that yields `frames` and afterwards either ends normally (`tail = none`) or
fails mid-stream (`tail = some e`, e.g. the timeout abort). -/
inductive StreamOutcome where
  | preFail (e : JsError)
  | stream (frames : List OpenAIFrame) (tail : Option JsError)
deriving DecidableEq, Repr

/-- The `for await` body: emit a `content_block_delta` for every frame whose
delta content is a non-empty string, and `break` on a truthy finish reason
(checked after the delta of the same frame).  Returns the connection and
whether the loop broke on a finish reason. -/
def emitDeltas (r : SSEConn) : List OpenAIFrame → SSEConn × Bool
  | [] => (r, false)
  | f :: fs =>
    let r1 := match f.deltaContent with
      | some s => if s ≠ "" then sseSend r (.contentBlockDelta s) else r
      | none => r
    if truthyStr f.finishReason then (r1, true)
    else emitDeltas r1 fs

/-- `streamOllamaToAnthropic`: on a 2xx response set the SSE headers, write
`message_start` and `content_block_start`, stream the deltas, and (unless the
body stream fails first) write `content_block_stop`, `message_stop` and end
the response.  The second component carries the escaping exception, with the
connection in the state it had reached. -/
def streamOllamaToAnthropic (now : Nat) (anthModelName : Option String) (r : SSEConn)
    (bo : StreamOutcome) : SSEConn × Option JsError :=
  match bo with
  | .preFail e => (r, some e)
  | .stream frames tail =>
    match setSSE r with
    | none => (r, some ⟨"Error", "ERR_HTTP_HEADERS_SENT"⟩)
    | some r0 =>
      let r1 := sseSend r0 (.messageStart ("msg_" ++ toString now) (modelOrDefault anthModelName))
      let r2 := sseSend r1 .contentBlockStart
      let (r3, finished) := emitDeltas r2 frames
      match tail, finished with
      | some e, false => (r3, some e)
      | _, _ =>
        let r4 := sseSend r3 .contentBlockStop
        let r5 := sseSend r4 .messageStop
        ({ r5 with ended := true }, none)

/-- The stream-error branch of the catch handler: reopen the SSE channel and
write a complete five-event sequence whose single delta carries the friendly
error description, then end the response. -/
def errorSSESeq (now : Nat) (anthModel : Option String) (timeoutMs : Nat) (e : JsError)
    (r : SSEConn) : SSEConn :=
  let r1 := sseSend r (.messageStart ("msg_" ++ toString now) (modelOrDefault anthModel))
  let r2 := sseSend r1 .contentBlockStart
  let r3 := sseSend r2 (.contentBlockDelta (friendlyMsg timeoutMs e))
  let r4 := sseSend r3 .contentBlockStop
  let r5 := sseSend r4 .messageStop
  { r5 with ended := true }

/-- The full streaming path of `POST /v1/messages` for one request: run
`streamOllamaToAnthropic` on a fresh connection; if it threw, the catch
branch calls `setSSE` again — when headers are already sent that call itself
throws, the handler aborts, and the connection is left exactly as it was
(half-open); otherwise the five-event error sequence is written. -/
def handleStream (now timeoutMs : Nat) (anthModel : Option String) (bo : StreamOutcome) :
    SSEConn :=
  let r0 : SSEConn := ⟨false, [], false⟩
  match streamOllamaToAnthropic now anthModel r0 bo with
  | (r, none) => r
  | (r, some e) =>
    match setSSE r with
    | none => r
    | some r1 => errorSSESeq now anthModel timeoutMs e r1

/-- The event-sequence shape the specification promises: one `message_start`,
one `content_block_start`, zero or more `content_block_delta`, one
`content_block_stop`, one `message_stop`, in that order and nothing else.
This definition follows the specification's words; it is the property, not
program code. -/
def deltasThenClose : List AnthSSE → Bool
  | [.contentBlockStop, .messageStop] => true
  | .contentBlockDelta _ :: rest => deltasThenClose rest
  | _ => false

/-- Boolean check of the complete five-part envelope shape. -/
def envelopeShape : List AnthSSE → Bool
  | .messageStart _ _ :: .contentBlockStart :: rest => deltasThenClose rest
  | _ => false

/-! ## Rate limiting (src/proxy.mjs, `rateLimit` and the gate in
`POST /v1/messages`) -/

/-- The `rateLimit.requests` map, `ip:window` keys to counts, modelled as an
insertion-ordered association list (JS `Map` iteration order). -/
structure RateLimitState where
  requests : List ((String × Nat) × Nat)
deriving DecidableEq, Repr

/-- `rateLimit.windowMs`. -/
def rlWindowMs : Nat := 60000

/-- `rateLimit.max`. -/
def rlMax : Nat := 100

/-- `this.requests.get(key) || 0`. -/
def rlLookup (m : List ((String × Nat) × Nat)) (k : String × Nat) : Nat :=
  match m.find? (fun p => p.1 == k) with
  | some p => p.2
  | none => 0

/-- `this.requests.set(key, v)`: overwrite in place or append. -/
def rlInsert (m : List ((String × Nat) × Nat)) (k : String × Nat) (v : Nat) :
    List ((String × Nat) × Nat) :=
  if (m.find? (fun p => p.1 == k)).isSome then
    m.map fun p => if p.1 == k then (k, v) else p
  else m ++ [(k, v)]

/-- `rateLimit.check(ip)` at time `now`: fixed window `floor(now / windowMs)`;
at or above `max` requests the call refuses without mutating, otherwise it
counts the request. -/
def rlCheck (st : RateLimitState) (ip : String) (now : Nat) : Bool × RateLimitState :=
  let key := (ip, now / rlWindowMs)
  let count := rlLookup st.requests key
  if rlMax ≤ count then (false, st)
  else (true, ⟨rlInsert st.requests key (count + 1)⟩)

/-- How far `POST /v1/messages` gets before (or whether) it enqueues work. -/
inductive PostOutcome where
  | rateLimited
  | unauthorized
  | badRequest
  | enqueued
deriving DecidableEq, Repr

/-- HTTP status attached to each early outcome (`enqueued` proceeds to the
backend call and responds later). -/
def statusOfOutcome : PostOutcome → Nat
  | .rateLimited => 429
  | .unauthorized => 401
  | .badRequest => 400
  | .enqueued => 200

/-- The guard sequence at the top of `POST /v1/messages`: rate limit first,
then bearer auth, then `messages` validation, then the work is enqueued. -/
def handlePost (st : RateLimitState) (ip : String) (now : Nat)
    (authorized messagesValid : Bool) : PostOutcome × RateLimitState :=
  let (ok, st1) := rlCheck st ip now
  if !ok then (.rateLimited, st1)
  else if !authorized then (.unauthorized, st1)
  else if !messagesValid then (.badRequest, st1)
  else (.enqueued, st1)

/-! ## Specification-side pump (for the refinement claim)

Modelled from the spec: "while running-count < limit and pending list
non-empty: pop the head job, increment running-count, invoke its function".
This loop version is compared with the source's single-step `_pump`. -/

/-- The specification's pump loop. -/
def pumpLoop (s : QueueState) : QueueState :=
  if s.inflight < s.limit then
    match s.q with
    | [] => s
    | j :: rest =>
      pumpLoop { s with inflight := s.inflight + 1
                        q := rest
                        running := s.running ++ [j]
                        started := s.started ++ [j] }
  else s
termination_by s.limit - s.inflight

/-- `enqueue` with the loop pump in place of the single-step pump. -/
def enqueueLoop (s : QueueState) (a : EnqueueArg) : EnqueueResult × QueueState :=
  match a with
  | .nonFunction => (.typeError, s)
  | .jobFn =>
    let full := match s.opts.maxQueueLength with
      | some m => decide (m ≤ s.q.length)
      | none => false
    if full then (.queueFull, s)
    else
      let j := s.nextId
      (.accepted j,
        pumpLoop { s with q := s.q ++ [j]
                          arrived := s.arrived ++ [j]
                          nextId := j + 1 })

/-- Settlement with the loop pump in place of the single-step pump. -/
def settleLoop (s : QueueState) (j : Nat) (o : Outcome) : QueueState :=
  if j ∈ s.running then
    pumpLoop { s with running := s.running.erase j
                      inflight := s.inflight - 1
                      settledLog := s.settledLog ++ [(j, o)] }
  else s

/-- One event under the specification's pump. -/
def qstepLoop (s : QueueState) (e : QEvent) : QueueState :=
  match e with
  | .enq a => (enqueueLoop s a).2
  | .settleEv j o => settleLoop s j o

/-! ## Conclusion predicates of the verified properties -/

/-- Conclusion of the slot-leak/failure-isolation property: enqueueing one
failing job onto `s` (it receives id `s.nextId`) starts it at once, and its
settlement with its own error restores `inflight` to the pre-enqueue value,
leaves every other pending and running job in place, and delivers exactly the
job's own failure to its caller. -/
def IsolatedFailureConcl (s : QueueState) (e : Nat) : Prop :=
  (enqueue s EnqueueArg.jobFn).1 = EnqueueResult.accepted s.nextId ∧
  (enqueue s EnqueueArg.jobFn).2.inflight = s.inflight + 1 ∧
  s.nextId ∈ (enqueue s EnqueueArg.jobFn).2.running ∧
  (settle (enqueue s EnqueueArg.jobFn).2 s.nextId (Outcome.err e)).inflight = s.inflight ∧
  (settle (enqueue s EnqueueArg.jobFn).2 s.nextId (Outcome.err e)).running = s.running ∧
  (settle (enqueue s EnqueueArg.jobFn).2 s.nextId (Outcome.err e)).q = s.q ∧
  (settle (enqueue s EnqueueArg.jobFn).2 s.nextId (Outcome.err e)).settledLog
    = s.settledLog ++ [(s.nextId, Outcome.err e)] ∧
  (settle (enqueue s EnqueueArg.jobFn).2 s.nextId (Outcome.err e)).started
    = s.started ++ [s.nextId]

/-- Conclusion of the enqueue-rejection property: a non-function argument
fails with a type error and an over-full pending list fails with the
queue-full error, in both cases returning the state exactly as it was. -/
def EnqueueRejectConcl (s : QueueState) : Prop :=
  enqueue s EnqueueArg.nonFunction = (EnqueueResult.typeError, s) ∧
  (∀ m, s.opts.maxQueueLength = some m → m ≤ s.q.length →
    enqueue s EnqueueArg.jobFn = (EnqueueResult.queueFull, s))

/-- Conclusion of the non-streaming envelope property: for a backend outcome
`o`, the caller receives exactly one structurally valid envelope (`id`,
`type`, `role`, `model`, singleton text content, `stop_reason`); on success
the text is the extracted first-choice content (defaulting to the empty
string), with HTTP 200; on any thrown backend error the text is the friendly
non-empty description with HTTP 502. -/
def NonStreamConcl (timeoutMs : Nat) (anthModel : Option String) (o : FetchOutcome) : Prop :=
  (handleNonStream timeoutMs anthModel o).2.id = "msg-local" ∧
  (handleNonStream timeoutMs anthModel o).2.type = "message" ∧
  (handleNonStream timeoutMs anthModel o).2.role = "assistant" ∧
  (handleNonStream timeoutMs anthModel o).2.model = modelOrDefault anthModel ∧
  (handleNonStream timeoutMs anthModel o).2.stop_reason = "end_turn" ∧
  (∃ txt, (handleNonStream timeoutMs anthModel o).2.content = [⟨"text", txt⟩]) ∧
  (∀ d, o = FetchOutcome.success d →
    (handleNonStream timeoutMs anthModel o).1 = 200 ∧
    (handleNonStream timeoutMs anthModel o).2.content = [⟨"text", extractText d⟩]) ∧
  (∀ e, callOllamaJSON o = Except.error e →
    (handleNonStream timeoutMs anthModel o).1 = 502 ∧
    (handleNonStream timeoutMs anthModel o).2.content
      = [⟨"text", friendlyMsg timeoutMs e⟩] ∧
    friendlyMsg timeoutMs e ≠ "")

/-! ## Decoder lemmas -/

theorem splitOnceNN_shape :
    ∀ l p r, splitOnceNN l = some (p, r) → l = p ++ '\n' :: '\n' :: r := by
  intro l
  induction l with
  | nil => intro p r h; simp [splitOnceNN] at h
  | cons c1 tl ih =>
    intro p r h
    cases tl with
    | nil => simp [splitOnceNN] at h
    | cons c2 rest =>
      rw [splitOnceNN] at h
      by_cases hc : c1 = '\n' ∧ c2 = '\n'
      · rw [if_pos hc] at h
        simp only [Option.some.injEq, Prod.mk.injEq] at h
        obtain ⟨hp, hr⟩ := h
        subst hp
        subst hr
        simp [hc.1, hc.2]
      · rw [if_neg hc] at h
        cases hsub : splitOnceNN (c2 :: rest) with
        | none => rw [hsub] at h; simp at h
        | some pr =>
          obtain ⟨p', r'⟩ := pr
          rw [hsub] at h
          simp only [Option.some.injEq, Prod.mk.injEq] at h
          obtain ⟨hp, hr⟩ := h
          subst hr
          rw [← hp, ih p' r' hsub]
          simp

theorem splitOnceNN_length {l p r : List Char} (h : splitOnceNN l = some (p, r)) :
    r.length < l.length := by
  have := splitOnceNN_shape l p r h
  subst this
  simp
  omega

theorem drainAux_congr (parse : List Char → Option (List Char)) :
    ∀ f1 f2 buf, buf.length ≤ f1 → buf.length ≤ f2 →
      drainAux parse f1 buf = drainAux parse f2 buf := by
  intro f1
  induction f1 with
  | zero =>
    intro f2 buf h1 h2
    have hb : buf = [] := List.length_eq_zero.mp (Nat.le_zero.mp h1)
    subst hb
    cases f2 with
    | zero => rfl
    | succ f2 => simp [drainAux, splitOnceNN]
  | succ f1 ih =>
    intro f2 buf h1 h2
    cases f2 with
    | zero =>
      have hb : buf = [] := List.length_eq_zero.mp (Nat.le_zero.mp h2)
      subst hb
      simp [drainAux, splitOnceNN]
    | succ f2 =>
      show drainAux parse (f1 + 1) buf = drainAux parse (f2 + 1) buf
      rw [drainAux, drainAux]
      cases hs : splitOnceNN buf with
      | none => rfl
      | some pr =>
        obtain ⟨part, rest⟩ := pr
        have hlen := splitOnceNN_length hs
        have hr1 : rest.length ≤ f1 := by omega
        have hr2 : rest.length ≤ f2 := by omega
        dsimp only
        cases frameAction parse part with
        | done => rfl
        | skip => exact ih f2 rest hr1 hr2
        | emit j => rw [ih f2 rest hr1 hr2]

/-- Unfolding equation for `drain`. -/
theorem drain_eq (parse : List Char → Option (List Char)) (buf : List Char) :
    drain parse buf =
      match splitOnceNN buf with
      | none => (some buf, [])
      | some (part, rest) =>
        match frameAction parse part with
        | .done => (none, [])
        | .skip => drain parse rest
        | .emit j =>
          let (st, es) := drain parse rest
          (st, j :: es) := by
  show drainAux parse buf.length buf = _
  cases hb : buf with
  | nil => simp [drainAux, splitOnceNN]
  | cons c tl =>
    show drainAux parse (tl.length + 1) (c :: tl) = _
    rw [drainAux]
    cases hs : splitOnceNN (c :: tl) with
    | none => rfl
    | some pr =>
      obtain ⟨part, rest⟩ := pr
      have hlen := splitOnceNN_length hs
      have hr : rest.length ≤ tl.length := by
        simp at hlen
        omega
      dsimp only
      cases frameAction parse part with
      | done => rfl
      | skip => exact drainAux_congr parse tl.length rest.length rest hr le_rfl
      | emit j =>
        rw [drainAux_congr parse tl.length rest.length rest hr le_rfl]
        rfl

theorem utf8Cont_length :
    ∀ k acc lo hi bs, (∀ cp rest, utf8Cont k acc lo hi bs = .inl (some (cp, rest)) →
      rest.length ≤ bs.length) ∧
      (∀ rest, utf8Cont k acc lo hi bs = .inr rest → rest.length ≤ bs.length) := by
  intro k
  induction k with
  | zero =>
    intro acc lo hi bs
    constructor
    · intro cp rest h
      simp only [utf8Cont, Sum.inl.injEq, Option.some.injEq, Prod.mk.injEq] at h
      rw [← h.2]
    · intro rest h
      simp [utf8Cont] at h
  | succ k ih =>
    intro acc lo hi bs
    cases bs with
    | nil =>
      constructor
      · intro cp rest h; simp [utf8Cont] at h
      · intro rest h; simp [utf8Cont] at h
    | cons b tl =>
      constructor
      · intro cp rest h
        rw [utf8Cont] at h
        by_cases hb : lo ≤ b ∧ b ≤ hi
        · rw [if_pos hb] at h
          have := (ih (acc * 64 + (b - 0x80)) 0x80 0xBF tl).1 cp rest h
          simp
          omega
        · rw [if_neg hb] at h
          simp at h
      · intro rest h
        rw [utf8Cont] at h
        by_cases hb : lo ≤ b ∧ b ≤ hi
        · rw [if_pos hb] at h
          have := (ih (acc * 64 + (b - 0x80)) 0x80 0xBF tl).2 rest h
          simp
          omega
        · rw [if_neg hb] at h
          simp only [Sum.inr.injEq] at h
          rw [← h]

/-! ## Queue lemmas -/

theorem pump_of_full {s : QueueState} (h : s.limit ≤ s.inflight) : pump s = s := by
  unfold pump
  rw [if_pos h]

theorem pump_of_empty {s : QueueState} (h : s.q = []) : pump s = s := by
  unfold pump
  by_cases hf : s.limit ≤ s.inflight
  · rw [if_pos hf]
  · rw [if_neg hf]
    split
    · rfl
    · rename_i j rest heq
      rw [h] at heq
      cases heq

theorem pump_of_cons {s : QueueState} (hlt : s.inflight < s.limit) {j : Nat} {rest : List Nat}
    (hq : s.q = j :: rest) :
    pump s = { s with inflight := s.inflight + 1
                      q := rest
                      running := s.running ++ [j]
                      started := s.started ++ [j] } := by
  unfold pump
  rw [if_neg (Nat.not_le.mpr hlt)]
  split
  · rename_i heq
    exact absurd (hq.symm.trans heq) (List.cons_ne_nil j rest)
  · rename_i j2 rest2 heq
    rw [hq] at heq
    cases heq
    rfl

theorem pump_limit (s : QueueState) : (pump s).limit = s.limit := by
  unfold pump
  split
  · rfl
  · split <;> rfl

theorem pump_opts (s : QueueState) : (pump s).opts = s.opts := by
  unfold pump
  split
  · rfl
  · split <;> rfl

theorem qstep_limit (s : QueueState) (e : QEvent) : (qstep s e).limit = s.limit := by
  cases e with
  | enq a =>
    cases a with
    | nonFunction => rfl
    | jobFn =>
      simp only [qstep, enqueue]
      split
      · rfl
      · exact pump_limit _
  | settleEv j o =>
    simp only [qstep, settle]
    split
    · exact pump_limit _
    · rfl

theorem qstep_opts (s : QueueState) (e : QEvent) : (qstep s e).opts = s.opts := by
  cases e with
  | enq a =>
    cases a with
    | nonFunction => rfl
    | jobFn =>
      simp only [qstep, enqueue]
      split
      · rfl
      · exact pump_opts _
  | settleEv j o =>
    simp only [qstep, settle]
    split
    · exact pump_opts _
    · rfl

theorem runTrace_limit (s : QueueState) (t : List QEvent) : (runTrace s t).limit = s.limit := by
  induction t generalizing s with
  | nil => rfl
  | cons e tl ih => exact (ih (qstep s e)).trans (qstep_limit s e)

theorem runTrace_opts (s : QueueState) (t : List QEvent) : (runTrace s t).opts = s.opts := by
  induction t generalizing s with
  | nil => rfl
  | cons e tl ih => exact (ih (qstep s e)).trans (qstep_opts s e)

theorem QInv_mkQueue (L : Nat) (mq : Option Nat) : QInv (mkQueue L mq) := by
  refine ⟨le_max_left 1 L, Nat.zero_le _, Or.inr rfl, rfl, rfl, ?_, ?_⟩ <;>
    intro k hk <;> simp [mkQueue] at hk

theorem QInv_enqueue_accepted {s : QueueState} (h : QInv s) :
    QInv (pump { s with q := s.q ++ [s.nextId]
                        arrived := s.arrived ++ [s.nextId]
                        nextId := s.nextId + 1 }) := by
  obtain ⟨hlim, hle, hsat, hcount, hfifo, hqf, hrf⟩ := h
  by_cases hfull : s.limit ≤ s.inflight
  · have hp : pump { s with q := s.q ++ [s.nextId]
                            arrived := s.arrived ++ [s.nextId]
                            nextId := s.nextId + 1 }
        = { s with q := s.q ++ [s.nextId]
                   arrived := s.arrived ++ [s.nextId]
                   nextId := s.nextId + 1 } := pump_of_full hfull
    rw [hp]
    have hinfl : s.inflight = s.limit := le_antisymm hle hfull
    refine ⟨hlim, hle, Or.inl hinfl, hcount, ?_, ?_, ?_⟩
    · show s.arrived ++ [s.nextId] = s.started ++ (s.q ++ [s.nextId])
      rw [hfifo, List.append_assoc]
    · intro k hk
      rcases List.mem_append.mp hk with hk | hk
      · exact Nat.lt_succ_of_lt (hqf k hk)
      · have hkn : k = s.nextId := by simpa using hk
        show k < s.nextId + 1
        omega
    · intro k hk
      exact Nat.lt_succ_of_lt (hrf k hk)
  · have hlt : s.inflight < s.limit := Nat.not_le.mp hfull
    have hq : s.q = [] := by
      rcases hsat with hsat | hsat
      · omega
      · exact hsat
    have hp : pump { s with q := s.q ++ [s.nextId]
                            arrived := s.arrived ++ [s.nextId]
                            nextId := s.nextId + 1 }
        = { s with inflight := s.inflight + 1
                   q := []
                   running := s.running ++ [s.nextId]
                   started := s.started ++ [s.nextId]
                   arrived := s.arrived ++ [s.nextId]
                   nextId := s.nextId + 1 } :=
      pump_of_cons (s := { s with q := s.q ++ [s.nextId]
                                  arrived := s.arrived ++ [s.nextId]
                                  nextId := s.nextId + 1 }) hlt (by rw [hq]; rfl)
    rw [hp]
    refine ⟨hlim, hlt, Or.inr rfl, ?_, ?_, ?_, ?_⟩
    · show s.inflight + 1 = (s.running ++ [s.nextId]).length
      simp [← hcount]
    · show s.arrived ++ [s.nextId] = (s.started ++ [s.nextId]) ++ []
      rw [hfifo, hq]
      simp
    · intro k hk
      simp at hk
    · intro k hk
      rcases List.mem_append.mp hk with hk | hk
      · exact Nat.lt_succ_of_lt (hrf k hk)
      · have hkn : k = s.nextId := by simpa using hk
        show k < s.nextId + 1
        omega

theorem QInv_settle {s : QueueState} (h : QInv s) (j : Nat) (o : Outcome) :
    QInv (settle s j o) := by
  obtain ⟨hlim, hle, hsat, hcount, hfifo, hqf, hrf⟩ := h
  unfold settle
  by_cases hj : j ∈ s.running
  · rw [if_pos hj]
    have hrun1 : 1 ≤ s.running.length := List.length_pos.mpr (List.ne_nil_of_mem hj)
    have herase : (s.running.erase j).length = s.running.length - 1 :=
      List.length_erase_of_mem hj
    cases hq : s.q with
    | nil =>
      have hp : pump { s with running := s.running.erase j
                              inflight := s.inflight - 1
                              q := []
                              settledLog := s.settledLog ++ [(j, o)] }
          = { s with running := s.running.erase j
                     inflight := s.inflight - 1
                     q := []
                     settledLog := s.settledLog ++ [(j, o)] } :=
        pump_of_empty (s := { s with running := s.running.erase j
                                     inflight := s.inflight - 1
                                     q := []
                                     settledLog := s.settledLog ++ [(j, o)] }) rfl
      rw [hp]
      refine ⟨hlim, ?_, Or.inr rfl, ?_, ?_, ?_, ?_⟩
      · show s.inflight - 1 ≤ s.limit
        omega
      · show s.inflight - 1 = (s.running.erase j).length
        omega
      · show s.arrived = s.started ++ []
        rw [hfifo, hq]
      · intro k hk
        simp at hk
      · intro k hk
        exact hrf k (List.erase_subset _ _ hk)
    | cons j2 rest =>
      have hinfl : s.inflight = s.limit := by
        rcases hsat with hsat | hsat
        · exact hsat
        · rw [hsat] at hq
          cases hq
      have hlt : s.inflight - 1 < s.limit := by omega
      have hp : pump { s with running := s.running.erase j
                              inflight := s.inflight - 1
                              q := j2 :: rest
                              settledLog := s.settledLog ++ [(j, o)] }
          = { s with running := s.running.erase j ++ [j2]
                     inflight := s.inflight - 1 + 1
                     q := rest
                     settledLog := s.settledLog ++ [(j, o)]
                     started := s.started ++ [j2] } :=
        pump_of_cons (s := { s with running := s.running.erase j
                                    inflight := s.inflight - 1
                                    q := j2 :: rest
                                    settledLog := s.settledLog ++ [(j, o)] }) hlt rfl
      rw [hp]
      refine ⟨hlim, ?_, Or.inl ?_, ?_, ?_, ?_, ?_⟩
      · show s.inflight - 1 + 1 ≤ s.limit
        omega
      · show s.inflight - 1 + 1 = s.limit
        omega
      · show s.inflight - 1 + 1 = (s.running.erase j ++ [j2]).length
        simp [herase]
        omega
      · show s.arrived = (s.started ++ [j2]) ++ rest
        rw [hfifo, hq]
        simp
      · intro k hk
        have hk : k ∈ rest := hk
        exact hqf k (by rw [hq]; exact List.mem_cons_of_mem _ hk)
      · intro k hk
        rcases List.mem_append.mp hk with hk | hk
        · exact hrf k (List.erase_subset _ _ hk)
        · have : k = j2 := by simpa using hk
          exact hqf k (by rw [hq, this]; exact List.mem_cons_self _ _)
  · rw [if_neg hj]
    exact ⟨hlim, hle, hsat, hcount, hfifo, hqf, hrf⟩

theorem QInv_qstep {s : QueueState} (h : QInv s) (e : QEvent) : QInv (qstep s e) := by
  cases e with
  | enq a =>
    cases a with
    | nonFunction => exact h
    | jobFn =>
      simp only [qstep, enqueue]
      split
      · exact h
      · exact QInv_enqueue_accepted h
  | settleEv j o => exact QInv_settle h j o

theorem QInv_runTrace (L : Nat) (mq : Option Nat) (t : List QEvent) :
    QInv (runTrace (mkQueue L mq) t) := by
  suffices hgen : ∀ (t : List QEvent) (s : QueueState), QInv s → QInv (runTrace s t) from
    hgen t _ (QInv_mkQueue L mq)
  intro t
  induction t with
  | nil => intro s hs; exact hs
  | cons e tl ih => intro s hs; exact ih (qstep s e) (QInv_qstep hs e)

/-! ## Claim theorems -/

/-- C2 (counterexample): the claim fails as stated for a queue constructed
with limit `L = 0` — the constructor coerces the limit to `1`, so enqueueing
a single job puts one job in flight, exceeding `L = 0`. -/
theorem queue_limit_zero_counterexample :
    (runTrace (mkQueue 0 none) [QEvent.enq EnqueueArg.jobFn]).inflight = 1 ∧
    ¬ (runTrace (mkQueue 0 none) [QEvent.enq EnqueueArg.jobFn]).inflight ≤ 0 := by
  decide

/-- C2 (amended): for every sequence of events on a queue constructed with
limit `L`, at every instant at most `max 1 L` jobs are in flight (so at most
`L` whenever `L ≥ 1`), and jobs begin running in exactly the order they were
accepted: the start log is always the prefix of the arrival log of its
length, with the pending list holding the remaining arrivals in order. -/
theorem queue_bound_and_fifo (L : Nat) (mq : Option Nat) (t : List QEvent) :
    (runTrace (mkQueue L mq) t).inflight ≤ max 1 L ∧
    (runTrace (mkQueue L mq) t).arrived
      = (runTrace (mkQueue L mq) t).started ++ (runTrace (mkQueue L mq) t).q ∧
    (runTrace (mkQueue L mq) t).started
      = ((runTrace (mkQueue L mq) t).arrived.take
          (runTrace (mkQueue L mq) t).started.length) := by
  obtain ⟨hlim, hle, hsat, hcount, hfifo, hqf, hrf⟩ := QInv_runTrace L mq t
  refine ⟨?_, hfifo, ?_⟩
  · have hl : (runTrace (mkQueue L mq) t).limit = max 1 L := runTrace_limit _ _
    rw [← hl]
    exact hle
  · rw [hfifo, List.take_left]

/-- C3: a job whose function always fails, enqueued when the queue has a free
slot, no pending work, and a bound that admits it (a configured
`maxQueueLength` of `0` rejects every enqueue outright), starts immediately;
when its function settles with its error, its caller receives exactly that
failure, the running count returns to its pre-enqueue value (no slot leak),
and no other pending or running job is affected. -/
theorem job_failure_isolated (L : Nat) (mq : Option Nat) (t : List QEvent) (e : Nat)
    (h1 : (runTrace (mkQueue L mq) t).q = [])
    (h2 : (runTrace (mkQueue L mq) t).inflight < (runTrace (mkQueue L mq) t).limit)
    (h3 : (runTrace (mkQueue L mq) t).opts.maxQueueLength ≠ some 0) :
    IsolatedFailureConcl (runTrace (mkQueue L mq) t) e := by
  obtain ⟨hlim, hle, hsat, hcount, hfifo, hqf, hrf⟩ := QInv_runTrace L mq t
  revert h1 h2 h3 hrf
  generalize runTrace (mkQueue L mq) t = s
  intro h1 h2 h3 hrf
  have hfull : (match s.opts.maxQueueLength with
      | some m => decide (m ≤ s.q.length)
      | none => false) = false := by
    cases hopt : s.opts.maxQueueLength with
    | none => rfl
    | some m =>
      have hm : m ≠ 0 := by
        intro h0
        rw [h0] at hopt
        exact h3 hopt
      rw [h1]
      simp
      omega
  have henq : enqueue s EnqueueArg.jobFn
      = (EnqueueResult.accepted s.nextId,
         { s with inflight := s.inflight + 1
                  q := []
                  running := s.running ++ [s.nextId]
                  started := s.started ++ [s.nextId]
                  arrived := s.arrived ++ [s.nextId]
                  nextId := s.nextId + 1 }) := by
    unfold enqueue
    rw [hfull]
    simp only [Bool.false_eq_true, if_false]
    rw [pump_of_cons (s := { s with q := s.q ++ [s.nextId]
                                    arrived := s.arrived ++ [s.nextId]
                                    nextId := s.nextId + 1 }) h2 (by rw [h1]; rfl)]
  have hnotmem : s.nextId ∉ s.running := fun hmem => absurd (hrf _ hmem) (by omega)
  have herase : (s.running ++ [s.nextId]).erase s.nextId = s.running := by
    rw [List.erase_append_right _ hnotmem]
    simp
  have hsettle : settle (enqueue s EnqueueArg.jobFn).2 s.nextId (Outcome.err e)
      = { s with inflight := s.inflight
                 q := []
                 running := s.running
                 started := s.started ++ [s.nextId]
                 arrived := s.arrived ++ [s.nextId]
                 settledLog := s.settledLog ++ [(s.nextId, Outcome.err e)]
                 nextId := s.nextId + 1 } := by
    rw [henq]
    unfold settle
    rw [if_pos (by simp)]
    rw [herase]
    exact pump_of_empty rfl
  refine ⟨by rw [henq], by rw [henq], by rw [henq]; simp, ?_, ?_, ?_, ?_, ?_⟩ <;>
    rw [hsettle]
  exact h1.symm

/-- C3 (witness): the scenario instantiated on a queue with limit `2` holding
one running job. -/
theorem job_failure_isolated_witness :
    IsolatedFailureConcl (runTrace (mkQueue 2 none) [QEvent.enq EnqueueArg.jobFn]) 7 :=
  job_failure_isolated 2 none [QEvent.enq EnqueueArg.jobFn] 7 (by decide) (by decide)
    (by decide)

/-- C9: `enqueue` fails without touching queue state in both rejection cases:
a non-function argument raises the type error, and a pending list at or above
a configured `maxQueueLength` yields the queue-full rejection; in both cases
the returned state is exactly the input state. -/
theorem enqueue_rejects_without_mutation (s : QueueState) : EnqueueRejectConcl s := by
  refine ⟨rfl, ?_⟩
  intro m hm hlen
  simp only [enqueue, hm]
  rw [if_pos (by simpa using hlen)]

/-- C9 (witness): a queue built with limit 1 and bound 1, after two accepted
jobs (one running, one pending), rejects both a third job and a non-function
argument, leaving the state unchanged. -/
theorem enqueue_rejects_witness :
    enqueue (runTrace (mkQueue 1 (some 1))
        [QEvent.enq EnqueueArg.jobFn, QEvent.enq EnqueueArg.jobFn]) EnqueueArg.jobFn
      = (EnqueueResult.queueFull,
         runTrace (mkQueue 1 (some 1))
           [QEvent.enq EnqueueArg.jobFn, QEvent.enq EnqueueArg.jobFn]) ∧
    enqueue (runTrace (mkQueue 1 (some 1))
        [QEvent.enq EnqueueArg.jobFn, QEvent.enq EnqueueArg.jobFn]) EnqueueArg.nonFunction
      = (EnqueueResult.typeError,
         runTrace (mkQueue 1 (some 1))
           [QEvent.enq EnqueueArg.jobFn, QEvent.enq EnqueueArg.jobFn]) :=
  ⟨(enqueue_rejects_without_mutation _).2 1 (by decide) (by decide),
   (enqueue_rejects_without_mutation _).1⟩

/-! ## Pump refinement lemmas -/

theorem pumpLoop_of_full {s : QueueState} (h : s.limit ≤ s.inflight) : pumpLoop s = s := by
  unfold pumpLoop
  rw [if_neg (Nat.not_lt.mpr h)]

theorem pumpLoop_of_empty {s : QueueState} (h : s.q = []) : pumpLoop s = s := by
  unfold pumpLoop
  by_cases hf : s.inflight < s.limit
  · rw [if_pos hf]
    split
    · rfl
    · rename_i j rest heq
      rw [h] at heq
      cases heq
  · rw [if_neg hf]

theorem pumpLoop_of_cons {s : QueueState} (hlt : s.inflight < s.limit) {j : Nat}
    {rest : List Nat} (hq : s.q = j :: rest) :
    pumpLoop s = pumpLoop { s with inflight := s.inflight + 1
                                   q := rest
                                   running := s.running ++ [j]
                                   started := s.started ++ [j] } := by
  conv_lhs => rw [pumpLoop]
  rw [if_pos hlt]
  split
  · rename_i heq
    exact absurd (hq.symm.trans heq) (List.cons_ne_nil j rest)
  · rename_i j2 rest2 heq
    rw [hq] at heq
    cases heq
    rfl

/-- On every state the source's event step (single pump) and the
specification's event step (loop pump) agree, provided the state satisfies
the reachable-state invariant. -/
theorem qstep_eq_qstepLoop_of_inv {s : QueueState} (h : QInv s) (ev : QEvent) :
    qstep s ev = qstepLoop s ev := by
  obtain ⟨hlim, hle, hsat, hcount, hfifo, hqf, hrf⟩ := h
  cases ev with
  | enq a =>
    cases a with
    | nonFunction => rfl
    | jobFn =>
      show (enqueue s EnqueueArg.jobFn).2 = (enqueueLoop s EnqueueArg.jobFn).2
      cases hfb : (match s.opts.maxQueueLength with
          | some m => decide (m ≤ s.q.length)
          | none => false) with
      | true => simp only [enqueue, enqueueLoop, hfb, if_true]
      | false =>
        simp only [enqueue, enqueueLoop, hfb, Bool.false_eq_true, if_false]
        by_cases hfull : s.limit ≤ s.inflight
        · rw [pump_of_full (s := { s with q := s.q ++ [s.nextId]
                                          arrived := s.arrived ++ [s.nextId]
                                          nextId := s.nextId + 1 }) hfull,
              pumpLoop_of_full (s := { s with q := s.q ++ [s.nextId]
                                              arrived := s.arrived ++ [s.nextId]
                                              nextId := s.nextId + 1 }) hfull]
        · have hlt : s.inflight < s.limit := Nat.not_le.mp hfull
          have hq : s.q = [] := by
            rcases hsat with hsat | hsat
            · omega
            · exact hsat
          rw [pump_of_cons (s := { s with q := s.q ++ [s.nextId]
                                          arrived := s.arrived ++ [s.nextId]
                                          nextId := s.nextId + 1 }) hlt (by rw [hq]; rfl),
              pumpLoop_of_cons (s := { s with q := s.q ++ [s.nextId]
                                              arrived := s.arrived ++ [s.nextId]
                                              nextId := s.nextId + 1 }) hlt (by rw [hq]; rfl),
              pumpLoop_of_empty rfl]
  | settleEv j o =>
    show settle s j o = settleLoop s j o
    unfold settle settleLoop
    by_cases hj : j ∈ s.running
    · rw [if_pos hj, if_pos hj]
      have hrun1 : 1 ≤ s.running.length := List.length_pos.mpr (List.ne_nil_of_mem hj)
      cases hq : s.q with
      | nil =>
        rw [pump_of_empty (s := { s with running := s.running.erase j
                                         inflight := s.inflight - 1
                                         q := []
                                         settledLog := s.settledLog ++ [(j, o)] }) rfl,
            pumpLoop_of_empty (s := { s with running := s.running.erase j
                                             inflight := s.inflight - 1
                                             q := []
                                             settledLog := s.settledLog ++ [(j, o)] }) rfl]
      | cons j2 rest =>
        have hinfl : s.inflight = s.limit := by
          rcases hsat with hsat | hsat
          · exact hsat
          · rw [hsat] at hq
            cases hq
        have hlt : s.inflight - 1 < s.limit := by omega
        rw [pump_of_cons (s := { s with running := s.running.erase j
                                        inflight := s.inflight - 1
                                        q := j2 :: rest
                                        settledLog := s.settledLog ++ [(j, o)] }) hlt rfl,
            pumpLoop_of_cons (s := { s with running := s.running.erase j
                                            inflight := s.inflight - 1
                                            q := j2 :: rest
                                            settledLog := s.settledLog ++ [(j, o)] }) hlt rfl,
            pumpLoop_of_full (by show s.limit ≤ s.inflight - 1 + 1; omega)]
    · rw [if_neg hj, if_neg hj]

/-- C4: on every reachable state the source's step — whose `_pump` starts at
most one job per invocation but runs after every enqueue and every
settlement — coincides with the specification's step, whose pump loops while
there is capacity and pending work; the pump is a no-op without capacity or
without pending jobs; reachable states never leave a job pending while
capacity is free; and with limit `1`, of two enqueued jobs the second starts
not before but exactly at the settlement of the first. -/
theorem pump_single_step_equiv :
    (∀ (L : Nat) (mq : Option Nat) (t : List QEvent) (ev : QEvent),
        qstep (runTrace (mkQueue L mq) t) ev = qstepLoop (runTrace (mkQueue L mq) t) ev) ∧
    (∀ s : QueueState, s.limit ≤ s.inflight → pump s = s) ∧
    (∀ s : QueueState, s.q = [] → pump s = s) ∧
    (∀ (L : Nat) (mq : Option Nat) (t : List QEvent),
        (runTrace (mkQueue L mq) t).inflight < (runTrace (mkQueue L mq) t).limit →
        (runTrace (mkQueue L mq) t).q = []) ∧
    ((runTrace (mkQueue 1 none)
        [QEvent.enq EnqueueArg.jobFn, QEvent.enq EnqueueArg.jobFn]).started = [0] ∧
     (runTrace (mkQueue 1 none)
        [QEvent.enq EnqueueArg.jobFn, QEvent.enq EnqueueArg.jobFn]).q = [1] ∧
     (settle (runTrace (mkQueue 1 none)
        [QEvent.enq EnqueueArg.jobFn, QEvent.enq EnqueueArg.jobFn]) 0 (Outcome.ok 0)).started
       = [0, 1]) := by
  refine ⟨fun L mq t ev => qstep_eq_qstepLoop_of_inv (QInv_runTrace L mq t) ev,
          fun s h => pump_of_full h,
          fun s h => pump_of_empty h,
          ?_, by decide⟩
  intro L mq t hlt
  obtain ⟨_, _, hsat, _, _, _, _⟩ := QInv_runTrace L mq t
  rcases hsat with hsat | hsat
  · omega
  · exact hsat

/-- C4 (witness): the equivalence and the no-op facts instantiated at
concrete states. -/
theorem pump_single_step_equiv_witness :
    qstep (runTrace (mkQueue 1 none) []) (QEvent.enq EnqueueArg.jobFn)
      = qstepLoop (runTrace (mkQueue 1 none) []) (QEvent.enq EnqueueArg.jobFn) ∧
    pump (mkQueue 1 none) = mkQueue 1 none :=
  ⟨pump_single_step_equiv.1 1 none [] (QEvent.enq EnqueueArg.jobFn),
   pump_single_step_equiv.2.2.1 (mkQueue 1 none) rfl⟩

/-- C5 (counterexample): the claim's tie-break order fails on the code.  The
text `"请证明这段code"` matches a reasoning keyword (`证明`), and on
reasoning-only input the reasoning model is `qwen2.5:7b`, yet `pickModel`
returns the coder model because the source tests `CODE_PATTERN` first. -/
theorem pickModel_priority_counterexample :
    testPattern REASONING_KEYWORDS "请证明这段code" = true ∧
    pickModel "请证明" = "qwen2.5:7b" ∧
    pickModel "请证明这段code" = "deepseek-coder:6.7b" ∧
    pickModel "请证明这段code" ≠ "qwen2.5:7b" := by
  decide

/-- C5 (amended): `pickModel` is a deterministic total function of the text
with tie-break order code-keyword match > reasoning-keyword match >
short-text threshold (length < 160) > default. -/
theorem pickModel_amended (text : String) :
    (testPattern CODE_KEYWORDS text = true → pickModel text = "deepseek-coder:6.7b") ∧
    (testPattern CODE_KEYWORDS text = false → testPattern REASONING_KEYWORDS text = true →
      pickModel text = "qwen2.5:7b") ∧
    (testPattern CODE_KEYWORDS text = false → testPattern REASONING_KEYWORDS text = false →
      text.length < 160 → pickModel text = "qwen3:0.6b") ∧
    (testPattern CODE_KEYWORDS text = false → testPattern REASONING_KEYWORDS text = false →
      ¬ text.length < 160 → pickModel text = "llama3.2:latest") := by
  refine ⟨fun hc => ?_, fun hc hr => ?_, fun hc hr hs => ?_, fun hc hr hs => ?_⟩
  · simp [pickModel, hc]
  · simp [pickModel, hc, hr]
  · simp [pickModel, hc, hr, hs]
  · simp [pickModel, hc, hr, hs]

/-- C5 (witness): the amended tie-break on concrete inputs. -/
theorem pickModel_amended_witness :
    pickModel "code" = "deepseek-coder:6.7b" ∧ pickModel "hello there" = "qwen3:0.6b" :=
  ⟨(pickModel_amended "code").1 (by decide),
   (pickModel_amended "hello there").2.2.1 (by decide) (by decide) (by decide)⟩

/-- C6 (counterexample): a present `system` field that is the empty string is
falsy in `if (anth.system)`, so no system-role message is produced, contrary
to the claim that every present string system field becomes one. -/
theorem system_empty_string_counterexample :
    anthropicToOpenAI ⟨SystemField.str "", []⟩ = [] ∧
    anthropicToOpenAI ⟨SystemField.str "", []⟩ ≠ [⟨"system", ""⟩] := by
  decide

/-- C6 (amended): translation yields the flat role/content list: a present
truthy `system` field (non-empty string, or any array of typed parts, whose
texts joined with newlines) becomes a single system-role message prefixed to
the list; array message content flattens to the newline-join of its
text-typed parts only (non-text parts dropped); string content passes
through; and the claim's two concrete examples evaluate as stated. -/
theorem translation_flattening (s : String) (ps : List ContentPart)
    (msgs : List AnthMessage) (hs : s ≠ "") :
    anthropicToOpenAI ⟨SystemField.str s, msgs⟩
      = ⟨"system", s⟩ :: msgs.map (fun m => ⟨m.role, flattenContent m.content⟩) ∧
    anthropicToOpenAI ⟨SystemField.parts ps, msgs⟩
      = ⟨"system", systemText ps⟩ :: msgs.map (fun m => ⟨m.role, flattenContent m.content⟩) ∧
    anthropicToOpenAI ⟨SystemField.absent, msgs⟩
      = msgs.map (fun m => ⟨m.role, flattenContent m.content⟩) ∧
    anthropicToOpenAI
        ⟨SystemField.parts [⟨"text", some "a"⟩, ⟨"text", some "b"⟩],
         [⟨"user", MsgContent.str "hi"⟩]⟩
      = [⟨"system", "a\nb"⟩, ⟨"user", "hi"⟩] ∧
    flattenParts [⟨"text", some "x"⟩, ⟨"image", none⟩, ⟨"text", some "y"⟩] = "x\ny" := by
  refine ⟨?_, by rfl, by rfl, by rfl, by rfl⟩
  simp [anthropicToOpenAI, hs]

/-- C6 (witness): the amended statement at a concrete body. -/
theorem translation_flattening_witness :
    anthropicToOpenAI ⟨SystemField.str "sys", [⟨"user", MsgContent.str "hello"⟩]⟩
      = [⟨"system", "sys"⟩, ⟨"user", "hello"⟩] :=
  (translation_flattening "sys" [] [⟨"user", MsgContent.str "hello"⟩] (by decide)).1

/-! ## Non-streaming envelope lemmas -/

theorem ne_empty_of_length_pos {s : String} (h : 0 < s.length) : s ≠ "" := by
  intro he
  rw [he] at h
  simp at h

theorem length_append_pos_left {s t : String} (h : 0 < s.length) : 0 < (s ++ t).length := by
  rw [String.length_append]
  omega

/-- Every branch of the error classifier yields a non-empty description. -/
theorem friendlyMsg_ne_empty (tms : Nat) (e : JsError) : friendlyMsg tms e ≠ "" := by
  unfold friendlyMsg
  split
  · decide
  · split
    · exact ne_empty_of_length_pos (length_append_pos_left (length_append_pos_left (by decide)))
    · exact ne_empty_of_length_pos (length_append_pos_left (by decide))

/-- C7: for every backend outcome of a non-streaming request the caller
receives exactly one structurally valid envelope; on success its text is the
first choice's message content with empty-string default and status 200; on
HTTP error or timeout/abort its text is the non-empty friendly description
with status 502 — never a raw transport error. -/
theorem nonstream_envelope_total (tms : Nat) (am : Option String) (o : FetchOutcome) :
    NonStreamConcl tms am o := by
  cases o with
  | success d =>
    refine ⟨rfl, rfl, rfl, rfl, rfl, ⟨extractText d, rfl⟩, ?_, ?_⟩
    · intro d2 hd
      cases hd
      exact ⟨rfl, rfl⟩
    · intro e he
      simp [callOllamaJSON] at he
  | httpError st d txt =>
    refine ⟨rfl, rfl, rfl, rfl, rfl, ⟨_, rfl⟩, ?_, ?_⟩
    · intro d2 hd
      cases hd
    · intro e he
      simp only [callOllamaJSON, Except.error.injEq] at he
      subst he
      exact ⟨rfl, rfl, friendlyMsg_ne_empty _ _⟩
  | abort =>
    refine ⟨rfl, rfl, rfl, rfl, rfl, ⟨_, rfl⟩, ?_, ?_⟩
    · intro d2 hd
      cases hd
    · intro e he
      simp only [callOllamaJSON, Except.error.injEq] at he
      subst he
      exact ⟨rfl, rfl, friendlyMsg_ne_empty _ _⟩

/-- C7 (witness): the envelope contract at a concrete timed-out call. -/
theorem nonstream_envelope_witness : NonStreamConcl 600000 none FetchOutcome.abort :=
  nonstream_envelope_total 600000 none FetchOutcome.abort

/-- C1: evaluation of the streaming path.  A pre-stream failure and a normal
stream both produce the complete five-part envelope and close the
connection, but a mid-stream failure (backend 2xx, body stream fails before
any finish reason — the failing input) leaves the connection half-open after
only `message_start` and `content_block_start`: the catch branch cannot
reopen the SSE channel because the headers are already sent, so no
`content_block_stop`/`message_stop` is ever written, contradicting the
claimed invariant (and the source comment's stated intent that stream errors
are always closed out via SSE). -/
theorem streaming_envelope_midstream_bug :
    (envelopeShape (handleStream 0 600000 none
        (StreamOutcome.stream [⟨some "hi", none⟩, ⟨none, some "stop"⟩] none)).events = true ∧
     (handleStream 0 600000 none
        (StreamOutcome.stream [⟨some "hi", none⟩, ⟨none, some "stop"⟩] none)).ended = true) ∧
    (envelopeShape (handleStream 0 600000 none
        (StreamOutcome.preFail ⟨"Error", "connect ECONNREFUSED"⟩)).events = true ∧
     (handleStream 0 600000 none
        (StreamOutcome.preFail ⟨"Error", "connect ECONNREFUSED"⟩)).ended = true) ∧
    ((handleStream 0 600000 none
        (StreamOutcome.stream [] (some ⟨"AbortError", "The operation was aborted."⟩))).events
       = [AnthSSE.messageStart "msg_0" "sonnet-4.5", AnthSSE.contentBlockStart] ∧
     envelopeShape (handleStream 0 600000 none
        (StreamOutcome.stream [] (some ⟨"AbortError", "The operation was aborted."⟩))).events
       = false ∧
     (handleStream 0 600000 none
        (StreamOutcome.stream [] (some ⟨"AbortError", "The operation was aborted."⟩))).ended
       = false) := by
  decide

/-! ## Re-chunking lemmas for the SSE decoder -/

theorem splitOnceNN_append {l p r : List Char} (b : List Char)
    (h : splitOnceNN l = some (p, r)) : splitOnceNN (l ++ b) = some (p, r ++ b) := by
  induction l generalizing p with
  | nil => simp [splitOnceNN] at h
  | cons c1 tl ih =>
    cases tl with
    | nil => simp [splitOnceNN] at h
    | cons c2 rest =>
      rw [splitOnceNN] at h
      rw [List.cons_append, List.cons_append, splitOnceNN]
      by_cases hc : c1 = '\n' ∧ c2 = '\n'
      · rw [if_pos hc] at h
        rw [if_pos hc]
        simp only [Option.some.injEq, Prod.mk.injEq] at h
        obtain ⟨hp, hr⟩ := h
        subst hp
        subst hr
        rfl
      · rw [if_neg hc] at h
        rw [if_neg hc]
        cases hsub : splitOnceNN (c2 :: rest) with
        | none => rw [hsub] at h; simp at h
        | some pr =>
          obtain ⟨p', r'⟩ := pr
          rw [hsub] at h
          simp only [Option.some.injEq, Prod.mk.injEq] at h
          obtain ⟨hp, hr⟩ := h
          subst hr
          have hstep := ih (p := p') hsub
          rw [show c2 :: (rest ++ b) = (c2 :: rest) ++ b from (List.cons_append c2 rest b).symm,
            hstep]
          rw [← hp]

/-- Appending more input to a buffer first replays the cuts of the original
buffer, then continues cutting the residue with the new input attached. -/
theorem drain_append (parse : List Char → Option (List Char)) :
    ∀ (n : Nat) (X : List Char), X.length ≤ n → ∀ (b : List Char),
      drain parse (X ++ b) =
        match drain parse X with
        | (none, es) => (none, es)
        | (some r, es) =>
          ((drain parse (r ++ b)).1, es ++ (drain parse (r ++ b)).2) := by
  intro n
  induction n with
  | zero =>
    intro X hX b
    have hx : X = [] := List.length_eq_zero.mp (Nat.le_zero.mp hX)
    subst hx
    rw [drain_eq parse []]
    simp [splitOnceNN]
  | succ n ih =>
    intro X hX b
    cases hs : splitOnceNN X with
    | none =>
      rw [drain_eq parse X, hs]
      simp
    | some pr =>
      obtain ⟨part, rest⟩ := pr
      have hrest : rest.length ≤ n := by
        have := splitOnceNN_length hs
        omega
      rw [drain_eq parse (X ++ b), splitOnceNN_append b hs, drain_eq parse X, hs]
      dsimp only
      cases hf : frameAction parse part with
      | done => rfl
      | skip => exact ih rest hrest b
      | emit j =>
        rw [ih rest hrest b]
        cases hd : drain parse rest with
        | mk st' es' =>
          cases st' with
          | none => rfl
          | some r => simp

/-- `drain_append` at exactly the buffer's length. -/
theorem drain_append_full (parse : List Char → Option (List Char)) (X b : List Char) :
    drain parse (X ++ b) =
      match drain parse X with
      | (none, es) => (none, es)
      | (some r, es) =>
        ((drain parse (r ++ b)).1, es ++ (drain parse (r ++ b)).2) :=
  drain_append parse X.length X le_rfl b

/-- Feeding a concatenation equals feeding the parts in sequence. -/
theorem feedChunk_comp (parse : List Char → Option (List Char))
    (st : Option (List Char)) (a b : List Char) :
    feedChunk parse st (a ++ b)
      = ((feedChunk parse (feedChunk parse st a).1 b).1,
         (feedChunk parse st a).2 ++ (feedChunk parse (feedChunk parse st a).1 b).2) := by
  cases st with
  | none => simp [feedChunk]
  | some buf =>
    show drain parse (buf ++ (a ++ b)) = _
    rw [← List.append_assoc, drain_append_full parse (buf ++ a) b]
    show _ = ((feedChunk parse (drain parse (buf ++ a)).1 b).1,
              (drain parse (buf ++ a)).2 ++ (feedChunk parse (drain parse (buf ++ a)).1 b).2)
    cases hd : drain parse (buf ++ a) with
    | mk st1 es1 =>
      cases st1 with
      | none => simp [feedChunk]
      | some r => rfl

/-- The residue of the cutting loop holds no complete part. -/
theorem drain_residue (parse : List Char → Option (List Char)) :
    ∀ (n : Nat) (buf : List Char), buf.length ≤ n →
      ∀ r, (drain parse buf).1 = some r → splitOnceNN r = none := by
  intro n
  induction n with
  | zero =>
    intro buf hb r hr
    have hx : buf = [] := List.length_eq_zero.mp (Nat.le_zero.mp hb)
    subst hx
    rw [drain_eq parse []] at hr
    simp [splitOnceNN] at hr
    subst hr
    rfl
  | succ n ih =>
    intro buf hb r hr
    rw [drain_eq parse buf] at hr
    cases hs : splitOnceNN buf with
    | none =>
      rw [hs] at hr
      simp at hr
      subst hr
      exact hs
    | some pr =>
      obtain ⟨part, rest⟩ := pr
      have hrest : rest.length ≤ n := by
        have := splitOnceNN_length hs
        omega
      rw [hs] at hr
      dsimp only at hr
      cases hf : frameAction parse part with
      | done => rw [hf] at hr; simp at hr
      | skip =>
        rw [hf] at hr
        exact ih rest hrest r hr
      | emit j =>
        rw [hf] at hr
        dsimp only at hr
        refine ih rest hrest r ?_
        cases hd : drain parse rest with
        | mk st' es' =>
          rw [hd] at hr
          exact hr

theorem feedAll_cons (parse : List Char → Option (List Char)) (st : Option (List Char))
    (c : List Char) (cs : List (List Char)) :
    feedAll parse st (c :: cs)
      = ((feedAll parse (feedChunk parse st c).1 cs).1,
         (feedChunk parse st c).2 ++ (feedAll parse (feedChunk parse st c).1 cs).2) := by
  simp only [feedAll]

theorem feedAll_single (parse : List Char → Option (List Char)) (st : Option (List Char))
    (x : List Char) :
    feedAll parse st [x] = feedChunk parse st x := by
  rw [feedAll_cons]
  show ((feedChunk parse st x).1, (feedChunk parse st x).2 ++ []) = feedChunk parse st x
  simp

/-- Feeding any chunk list from a state whose buffer holds no complete part
yields the same result as feeding the concatenation as one chunk. -/
theorem feedAll_join (parse : List Char → Option (List Char)) :
    ∀ (cs : List (List Char)) (st : Option (List Char)),
      (∀ r, st = some r → splitOnceNN r = none) →
      feedAll parse st cs = feedAll parse st [cs.flatten] := by
  intro cs
  induction cs with
  | nil =>
    intro st hst
    rw [show ([] : List (List Char)).flatten = [] from rfl, feedAll_single]
    cases st with
    | none => rfl
    | some r =>
      show (some r, []) = drain parse (r ++ [])
      rw [List.append_nil, drain_eq parse r, hst r rfl]
  | cons c cs ih =>
    intro st hst
    have hres : ∀ r, (feedChunk parse st c).1 = some r → splitOnceNN r = none := by
      intro r hr
      cases st with
      | none => simp [feedChunk] at hr
      | some buf => exact drain_residue parse (buf ++ c).length (buf ++ c) le_rfl r hr
    calc feedAll parse st (c :: cs)
        = ((feedAll parse (feedChunk parse st c).1 cs).1,
           (feedChunk parse st c).2 ++ (feedAll parse (feedChunk parse st c).1 cs).2) :=
          feedAll_cons parse st c cs
      _ = ((feedAll parse (feedChunk parse st c).1 [cs.flatten]).1,
           (feedChunk parse st c).2
             ++ (feedAll parse (feedChunk parse st c).1 [cs.flatten]).2) := by
          rw [ih _ hres]
      _ = ((feedChunk parse (feedChunk parse st c).1 cs.flatten).1,
           (feedChunk parse st c).2
             ++ (feedChunk parse (feedChunk parse st c).1 cs.flatten).2) := by
          rw [feedAll_single]
      _ = feedChunk parse st (c ++ cs.flatten) := by
          rw [← feedChunk_comp]
      _ = feedAll parse st [(c :: cs).flatten] := by
          rw [show (c :: cs).flatten = c ++ cs.flatten from rfl, feedAll_single]

/-- C8 (amended): the decoder is invariant under re-chunking at character
boundaries: for every partial JSON-parsing function and every division of the
character stream into transport chunks, the decoded event sequence equals the
one obtained from the whole stream delivered as a single chunk.  (Byte-level
splits inside one UTF-8 character are not invariant; see the
counterexample.) -/
theorem sse_rechunk_invariant (parse : List Char → Option (List Char))
    (chunks : List (List Char)) :
    decodeSSE parse chunks = decodeSSE parse [chunks.flatten] := by
  unfold decodeSSE
  rw [feedAll_join parse chunks (some []) (by intro r hr; simp at hr; subst hr; rfl)]

/-- C8 (counterexample): the claim fails at byte granularity.  The source
decodes each transport chunk separately (`buf += chunk.toString("utf8")`), so
splitting the frame `data: "中"\n\n` between the first and second byte of the
three-byte character `中` (U+4E2D, bytes `E4 B8 AD`) turns the payload into
three replacement characters, and the decoded events differ from one-chunk
delivery. -/
theorem sse_byte_split_counterexample :
    decodeSSEBytes (fun l => some l)
        [[0x64, 0x61, 0x74, 0x61, 0x3a, 0x20, 0x22, 0xE4, 0xB8, 0xAD, 0x22, 0x0a, 0x0a]]
      = [['"', '中', '"']] ∧
    decodeSSEBytes (fun l => some l)
        [[0x64, 0x61, 0x74, 0x61, 0x3a, 0x20, 0x22, 0xE4],
         [0xB8, 0xAD, 0x22, 0x0a, 0x0a]]
      = [['"', replChar, replChar, replChar, '"']] ∧
    decodeSSEBytes (fun l => some l)
        [[0x64, 0x61, 0x74, 0x61, 0x3a, 0x20, 0x22, 0xE4, 0xB8, 0xAD, 0x22, 0x0a, 0x0a]]
      ≠ decodeSSEBytes (fun l => some l)
        [[0x64, 0x61, 0x74, 0x61, 0x3a, 0x20, 0x22, 0xE4],
         [0xB8, 0xAD, 0x22, 0x0a, 0x0a]] := by
  decide

theorem rlLookup_cons_of_neg {p : (String × Nat) × Nat} {tl : List ((String × Nat) × Nat)}
    {k : String × Nat} (h : (p.1 == k) = false) :
    rlLookup (p :: tl) k = rlLookup tl k := by
  simp [rlLookup, List.find?, h]

theorem rlLookup_cons_self {tl : List ((String × Nat) × Nat)} {k : String × Nat} {v : Nat} :
    rlLookup ((k, v) :: tl) k = v := by
  simp [rlLookup, List.find?]

theorem rlLookup_insert (m : List ((String × Nat) × Nat)) (k : String × Nat) (v : Nat) :
    rlLookup (rlInsert m k v) k = v := by
  induction m with
  | nil => simp [rlInsert, rlLookup, List.find?]
  | cons p tl ih =>
    by_cases hp : (p.1 == k) = true
    · have hfind : ((p :: tl).find? (fun q => q.1 == k)).isSome = true := by
        simp [List.find?, hp]
      unfold rlInsert
      rw [if_pos hfind, List.map_cons, if_pos hp]
      exact rlLookup_cons_self
    · have hpf : (p.1 == k) = false := by simpa using hp
      have hfind : (p :: tl).find? (fun q => q.1 == k) = tl.find? (fun q => q.1 == k) := by
        simp [List.find?, hpf]
      by_cases hsm : (tl.find? (fun q => q.1 == k)).isSome = true
      · unfold rlInsert
        rw [if_pos (by rw [hfind]; exact hsm), List.map_cons, if_neg (by simp [hpf])]
        rw [rlLookup_cons_of_neg hpf]
        have hins : rlInsert tl k v = tl.map (fun q => if q.1 == k then (k, v) else q) := by
          unfold rlInsert
          rw [if_pos hsm]
        rw [← hins]
        exact ih
      · unfold rlInsert
        rw [if_neg (by rw [hfind]; exact hsm), List.cons_append]
        rw [rlLookup_cons_of_neg hpf]
        have hins : rlInsert tl k v = tl ++ [(k, v)] := by
          unfold rlInsert
          rw [if_neg hsm]
        rw [← hins]
        exact ih

/-- C10: `POST /v1/messages` enforces the per-IP fixed-window rate limit
before authentication and body validation: at or beyond 100 requests in the
current 60-second window the request is answered 429 with the state (and
queue) untouched, regardless of token validity or body shape; below the
bound, every request — valid or not — consumes one unit of the window's
budget. -/
theorem rate_limit_gate (st : RateLimitState) (ip : String) (now : Nat)
    (authorized messagesValid : Bool) :
    (rlMax ≤ rlLookup st.requests (ip, now / rlWindowMs) →
      handlePost st ip now authorized messagesValid = (PostOutcome.rateLimited, st) ∧
      statusOfOutcome (handlePost st ip now authorized messagesValid).1 = 429) ∧
    (rlLookup st.requests (ip, now / rlWindowMs) < rlMax →
      rlLookup (handlePost st ip now authorized messagesValid).2.requests
          (ip, now / rlWindowMs)
        = rlLookup st.requests (ip, now / rlWindowMs) + 1) := by
  constructor
  · intro h
    have hpost : handlePost st ip now authorized messagesValid = (PostOutcome.rateLimited, st) := by
      simp [handlePost, rlCheck, h]
    exact ⟨hpost, by rw [hpost]; rfl⟩
  · intro h
    have hcheck : rlCheck st ip now
        = (true, ⟨rlInsert st.requests (ip, now / rlWindowMs)
            (rlLookup st.requests (ip, now / rlWindowMs) + 1)⟩) := by
      simp [rlCheck, Nat.not_le.mpr h]
    have hstate : (handlePost st ip now authorized messagesValid).2.requests
        = rlInsert st.requests (ip, now / rlWindowMs)
            (rlLookup st.requests (ip, now / rlWindowMs) + 1) := by
      simp only [handlePost, hcheck]
      cases authorized <;> cases messagesValid <;> rfl
    rw [hstate, rlLookup_insert]

/-- C10 (witness): a saturated window rejects an authorized request with the
map untouched, and an unauthorized request still consumes budget. -/
theorem rate_limit_gate_witness :
    handlePost ⟨[(("10.0.0.1", 0), 100)]⟩ "10.0.0.1" 0 true true
      = (PostOutcome.rateLimited, ⟨[(("10.0.0.1", 0), 100)]⟩) ∧
    rlLookup (handlePost ⟨[]⟩ "10.0.0.1" 0 false false).2.requests ("10.0.0.1", 0) = 1 :=
  ⟨((rate_limit_gate ⟨[(("10.0.0.1", 0), 100)]⟩ "10.0.0.1" 0 true true).1 (by decide)).1,
   (rate_limit_gate ⟨[]⟩ "10.0.0.1" 0 false false).2 (by decide)⟩

end LocalProxy
